import Mathlib

/-!
Shallow embedding of the product-description decomposition engine of
`po_processing.py` (functions `_split_flavour_strength` and
`_extract_product_flavour_strength`), of the row-enrichment merge step
(`parse_product_flavour_strength`, modelled per row), and of the label-count
arithmetic of `label_calculation.py` (`compute_final_labels`, modelled per row).

Python strings are modelled as `List Char`.  The regular-expression searches
of the source are implemented as explicit leftmost-match scanners, one per
regex, with the exact character classes of the source.  All definitions are
structural recursions, hence executable and kernel-reducible.

The decomposer first collapses every whitespace run to a single space and
strips the ends (source lines 142-143); consequently the text reaching the
bracket / pods / trailing-delimiter scanners never contains a newline, so the
no-newline restriction of the Python `.` metacharacter is vacuous there and
is not modelled separately.
-/

namespace LabelApp

/-- ASCII whitespace, the characters matched by the Python `\s` class and
stripped by `str.strip` on the data this program processes. -/
def isPySpace (c : Char) : Bool :=
  c = ' ' || c = '\t' || c = '\n' || c = '\r' || c = '\x0b' || c = '\x0c'

/-- Word characters of the Python `\w` class (ASCII range), used by the `\b`
word-boundary assertions of the source regexes. -/
def isWordChar (c : Char) : Bool :=
  c.isAlphanum || c = '_'

/-- Separator characters of the bracket-content split `re.split(r"[/\-\|;]", inside)`
(source line 117). -/
def isSepChar (c : Char) : Bool :=
  c = '/' || c = '-' || c = '|' || c = ';'

/-- Delimiter characters of the trailing-segment regex `[,|-]` (source line 178). -/
def isDelimChar (c : Char) : Bool :=
  c = ',' || c = '|' || c = '-'

/-- Lowercasing, modelling Python `str.lower` on the ASCII data processed here. -/
def lowerL (s : List Char) : List Char :=
  s.map Char.toLower

/-- Remove leading whitespace (the left half of `str.strip`). -/
def trimL (s : List Char) : List Char :=
  s.dropWhile isPySpace

/-- Remove trailing whitespace (the right half of `str.strip`). -/
def trimR : List Char → List Char
  | [] => []
  | c :: cs =>
    if trimR cs = [] then (if isPySpace c then [] else [c]) else c :: trimR cs

/-- Python `str.strip`: remove leading and trailing whitespace. -/
def trim (s : List Char) : List Char :=
  trimR (trimL s)

/-- Replace every maximal run of whitespace by a single space, modelling
`re.sub(r"\s+", " ", p)` (source line 143). -/
def collapseWS : List Char → List Char
  | [] => []
  | [c] => if isPySpace c then [' '] else [c]
  | c :: d :: cs =>
    if isPySpace c then
      if isPySpace d then collapseWS (d :: cs)
      else ' ' :: collapseWS (d :: cs)
    else c :: collapseWS (d :: cs)

/-- Whitespace normalization of the decomposer, source lines 141-143:
`p = re.sub(r"\s+", " ", p).strip()`. -/
def normalize (s : List Char) : List Char :=
  trim (collapseWS s)

/-- Leftmost match of `\[(.+?)\]` (source line 149).  Returns
`(before, inner, after)` where `before ++ LBRACK ++ inner ++ RBRACK ++ after`
is the input: the match starts at the first bracket that is followed, at
distance at least two, by a closing bracket, and the non-greedy inner group
stops at the first such closing bracket. -/
def findBracket : List Char → Option (List Char × List Char × List Char)
  | [] => none
  | c :: cs =>
    if c = '[' then
      match cs with
      | [] => none
      | x :: r =>
        match r.findIdx? (fun d => d = ']') with
        | some m => some ([], x :: r.take m, r.drop (m + 1))
        | none => (findBracket cs).map (fun t => (c :: t.1, t.2.1, t.2.2))
    else (findBracket cs).map (fun t => (c :: t.1, t.2.1, t.2.2))

/-- Match of `\s*mg\b` (case-insensitive) at the start of the input; returns
the number of characters consumed. -/
def mgSuffixLen (s : List Char) : Option Nat :=
  match s.dropWhile isPySpace with
  | m :: g :: rest =>
    if (m = 'm' || m = 'M') && (g = 'g' || g = 'G')
        && (match rest with | [] => true | d :: _ => !isWordChar d) then
      some ((s.takeWhile isPySpace).length + 2)
    else none
  | _ => none

/-- Match of `\d+\s*mg\b` (case-insensitive) anchored at the start of the
input (the first character must be a digit); returns the matched length.
The greedy `\d+` takes the whole digit run; backtracking cannot produce a
match here that the greedy run misses, because a shorter digit prefix leaves
a digit where `\s*mg` must start. -/
def mgMatchLen (s : List Char) : Option Nat :=
  match s with
  | c :: _ =>
    if c.isDigit then
      (mgSuffixLen (s.dropWhile Char.isDigit)).map
        (fun k => (s.takeWhile Char.isDigit).length + k)
    else none
  | [] => none

/-- Leftmost match of `(\d+\s*mg)\b` case-insensitive (source line 162) —
note the absence of a LEADING word-boundary assertion in the source pattern.
Returns `(before, matched, after)` with `before ++ matched ++ after` the input. -/
def searchStrength : List Char → Option (List Char × List Char × List Char)
  | [] => none
  | c :: cs =>
    match mgMatchLen (c :: cs) with
    | some n => some ([], (c :: cs).take n, (c :: cs).drop n)
    | none => (searchStrength cs).map (fun t => (c :: t.1, t.2.1, t.2.2))

/-- Search for `\b\d+\s*mg\b` (source line 123), tracking whether the previous
character is a non-word character so that the leading word boundary holds. -/
def hasStrengthAux : Bool → List Char → Bool
  | _, [] => false
  | prevNonWord, c :: cs =>
    (prevNonWord && (mgMatchLen (c :: cs)).isSome) || hasStrengthAux (!isWordChar c) cs

/-- Whether `re.search(r"\b\d+\s*mg\b", s)` finds a match (applied to the
lowercased token in the source; `mgMatchLen` also accepts uppercase MG, which
is harmless after lowercasing). -/
def hasStrengthWord (s : List Char) : Bool :=
  hasStrengthAux true s

/-- Raw split on the separator class, modelling `re.split(r"[/\-\|;]", inside)`
(empty pieces included, as in Python). -/
def splitSepsAux : List Char → List Char → List (List Char)
  | [], acc => [acc.reverse]
  | c :: cs, acc =>
    if isSepChar c then acc.reverse :: splitSepsAux cs []
    else splitSepsAux cs (c :: acc)

/-- Token list of the bracket inner text, source line 117:
stripped pieces of the separator split, empty pieces discarded. -/
def splitTokens (inside : List Char) : List (List Char) :=
  ((splitSepsAux inside []).map trim).filter (fun t => !t.isEmpty)

/-- The classification loop of `_split_flavour_strength` (source lines 121-126):
a token containing a whole-word digits+mg substring overwrites the strength
accumulator, every other token is appended to the flavour accumulator. -/
def sfsLoop : List (List Char) → List (List Char) → List Char → List Char × List Char
  | [], flavAcc, str => (trim (List.intercalate [' '] flavAcc.reverse), str)
  | t :: ts, flavAcc, str =>
    if hasStrengthWord (lowerL t) then sfsLoop ts flavAcc t
    else sfsLoop ts (t :: flavAcc) str

/-- `_split_flavour_strength` (source lines 111-129). -/
def split_flavour_strength (inside : List Char) : List Char × List Char :=
  sfsLoop (splitTokens inside) [] []

/-- Strength extraction of the no-bracket path, source lines 159-165:
leftmost `(\d+\s*mg)\b` match is stripped from the text; returns
`(strength, remainder)`. -/
def strengthStrip (p : List Char) : List Char × List Char :=
  match searchStrength p with
  | some (a, m, b) => (trim m, trim (a ++ b))
  | none => ([], p)

/-- For a position right after a case-insensitive `pods` occurrence: the
`\s+(.+)$` tail of the regex at source line 173.  Returns the group when the
tail matches (at least one whitespace character, then at least one further
character; when only whitespace remains the greedy `\s+` backtracks one
character into the group). -/
def podsGroup (after : List Char) : Option (List Char) :=
  let k := (after.takeWhile isPySpace).length
  if k = 0 then none
  else if k < after.length then some (after.drop k)
  else if 2 ≤ k then some (after.drop (k - 1))
  else none

/-- Leftmost match of `pods\s+(.+)$` case-insensitive (source line 173).
Returns `(before, group)` where `before` is the text preceding the match. -/
def podsSearch : List Char → Option (List Char × List Char)
  | [] => none
  | c :: cs =>
    if ((c :: cs).take 4).map Char.toLower = ['p', 'o', 'd', 's'] then
      match podsGroup ((c :: cs).drop 4) with
      | some g => some ([], g)
      | none => (podsSearch cs).map (fun t => (c :: t.1, t.2))
    else (podsSearch cs).map (fun t => (c :: t.1, t.2))

/-- For the text after a delimiter: the `\s*([^,|-]+)$` tail of the regex at
source line 178.  The group must run to the end of the string and contain no
delimiter; when only whitespace follows the delimiter, the greedy `\s*`
backtracks one character into the group. -/
def ruleBGroup (cs : List Char) : Option (List Char) :=
  let k := (cs.takeWhile isPySpace).length
  if (cs.drop k).isEmpty then
    if 1 ≤ k then some (cs.drop (k - 1)) else none
  else if (cs.drop k).all (fun d => !isDelimChar d) then some (cs.drop k)
  else none

/-- Leftmost match of `[,|-]\s*([^,|-]+)$` (source line 178).  Returns
`(before, group)` where `before` is the text preceding the matched delimiter. -/
def ruleB : List Char → Option (List Char × List Char)
  | [] => none
  | c :: cs =>
    if isDelimChar c then
      match ruleBGroup cs with
      | some g => some ([], g)
      | none => (ruleB cs).map (fun t => (c :: t.1, t.2))
    else (ruleB cs).map (fun t => (c :: t.1, t.2))

/-- Flavour guessing on the strength-stripped remainder, source lines 170-183:
the pods rule first, else the trailing-delimiter rule, else no flavour.
Returns `(clean product, flavour)`. -/
def flavourStep (q : List Char) : List Char × List Char :=
  match podsSearch q with
  | some (b, g) => (trim b, trim g)
  | none =>
    match ruleB q with
    | some (b, g) => (trim b, trim g)
    | none => (q, [])

/-- Branching body of `_extract_product_flavour_strength` on the already
whitespace-normalized text (source lines 145-183): empty check, then the
bracketed path, else the no-bracket path. -/
def decomposeCore (p : List Char) : List Char × List Char × List Char :=
  if p = [] then ([], [], [])
  else
    match findBracket p with
    | some (before, inside, after) =>
      ((trim (before ++ after)),
       (split_flavour_strength (trim inside)).1,
       (split_flavour_strength (trim inside)).2)
    | none =>
      ((flavourStep (strengthStrip p).2).1,
       (flavourStep (strengthStrip p).2).2,
       (strengthStrip p).1)

/-- `_extract_product_flavour_strength` (source lines 132-183) on a string
input: normalize, then the bracketed path, else the no-bracket path. -/
def extract_product_flavour_strength (p0 : List Char) : List Char × List Char × List Char :=
  decomposeCore (normalize p0)

/-- The decomposer on an optional input: `str(p or "")` (source line 141)
turns a missing value into the empty string. -/
def extract_pfs_opt : Option (List Char) → List Char × List Char × List Char
  | none => extract_product_flavour_strength []
  | some s => extract_product_flavour_strength s

/-- One row of the PO table as consumed by `parse_product_flavour_strength`
(source lines 186-226): the three columns the step may rewrite plus the
columns it must leave alone.  All fields are text; a missing value is the
empty string (the source creates absent columns as `""`). -/
structure PoRow where
  sku : List Char
  outstanding : List Char
  case_size : List Char
  product : List Char
  flavour : List Char
  strength : List Char
deriving DecidableEq

/-- Row-level model of the merge step of `parse_product_flavour_strength`
(source lines 201-223): decompose the Product text, then overwrite each of
Product, Flavour, Strength with the decomposed value only when that value is
non-empty (the `.where(notna and nonempty, original)` calls; the decomposer
always returns strings, so the notna conjunct is vacuous). -/
def parse_row (r : PoRow) : PoRow :=
  let e := extract_product_flavour_strength r.product
  { r with
    product := if e.1 = [] then r.product else e.1
    flavour := if e.2.1 = [] then r.flavour else e.2.1
    strength := if e.2.2 = [] then r.strength else e.2.2 }

/-- Row used to instantiate the merge theorem at a concrete input. -/
def sampleRow : PoRow :=
  { sku := "S1".toList
    outstanding := "5".toList
    case_size := "10".toList
    product := "Vape [Mango]".toList
    flavour := "Old".toList
    strength := "OldStrength".toList }

/-- Row-level model of the `calc` closure inside `compute_final_labels`
(label_calculation.py lines 29-34).  Numeric cells are rationals; a NaN
produced by the coercions is `none`.  Outstanding has already been
`fillna(0)`-ed (line 26), modelled by `Option.getD 0`; Case_Size keeps its
NaN (line 27), checked by `pd.notna` before use. -/
def final_labels (outstanding : Option ℚ) (case_size : Option ℚ) : Int :=
  let out := outstanding.getD 0
  match case_size with
  | some cs => if 0 < cs ∧ 0 < out then ⌈out / cs⌉ else 0
  | none => 0

/-! ## Helper lemmas -/

theorem dropWhile_dropWhile (p : Char → Bool) (l : List Char) :
    List.dropWhile p (List.dropWhile p l) = List.dropWhile p l := by
  induction l with
  | nil => rfl
  | cons c cs ih =>
    by_cases h : p c
    · simp [List.dropWhile_cons, h, ih]
    · simp [List.dropWhile_cons, h]

theorem trimL_idem (s : List Char) : trimL (trimL s) = trimL s :=
  dropWhile_dropWhile _ _

theorem trimR_idem (s : List Char) : trimR (trimR s) = trimR s := by
  induction s with
  | nil => rfl
  | cons c cs ih =>
    by_cases h1 : trimR cs = []
    · by_cases h2 : isPySpace c
      · simp [trimR, h1, h2]
      · simp [trimR, h1, h2]
    · simp [trimR, h1, ih]

theorem trimL_trimR_comm (s : List Char) : trimL (trimR s) = trimR (trimL s) := by
  induction s with
  | nil => rfl
  | cons c cs ih =>
    by_cases hc : isPySpace c = true
    · by_cases h1 : trimR cs = []
      · have hL : trimL (c :: cs) = trimL cs := by simp [trimL, List.dropWhile_cons, hc]
        rw [hL, ← ih, h1]
        simp [trimR, h1, hc, trimL]
      · have hL : trimL (c :: cs) = trimL cs := by simp [trimL, List.dropWhile_cons, hc]
        rw [hL, ← ih]
        have hR : trimR (c :: cs) = c :: trimR cs := by simp [trimR, h1]
        rw [hR]
        simp [trimL, List.dropWhile_cons, hc]
    · have hL : trimL (c :: cs) = c :: cs := by
        simp [trimL, List.dropWhile_cons, hc]
      rw [hL]
      by_cases h1 : trimR cs = []
      · have hR : trimR (c :: cs) = [c] := by simp [trimR, h1, hc]
        rw [hR]
        simp [trimL, List.dropWhile_cons, hc]
      · have hR : trimR (c :: cs) = c :: trimR cs := by simp [trimR, h1]
        rw [hR]
        simp [trimL, List.dropWhile_cons, hc]

theorem trim_idem (s : List Char) : trim (trim s) = trim s := by
  unfold trim
  rw [trimL_trimR_comm, trimL_idem, trimR_idem]

theorem sfsLoop_strength (ts : List (List Char)) (acc : List (List Char)) (str : List Char) :
    (sfsLoop ts acc str).2 =
      List.getLastD (ts.filter (fun t => hasStrengthWord (lowerL t))) str := by
  induction ts generalizing acc str with
  | nil => rfl
  | cons t ts ih =>
    by_cases h : hasStrengthWord (lowerL t) = true
    · rw [show sfsLoop (t :: ts) acc str = sfsLoop ts acc t from by simp [sfsLoop, h]]
      rw [ih, List.filter_cons, if_pos (by simp [h]), List.getLastD_cons]
    · rw [show sfsLoop (t :: ts) acc str = sfsLoop ts (t :: acc) str from by simp [sfsLoop, h]]
      rw [ih, List.filter_cons, if_neg (by simp [h])]

theorem sfsLoop_flavour (ts : List (List Char)) (acc : List (List Char)) (str : List Char) :
    (sfsLoop ts acc str).1 =
      trim (List.intercalate [' ']
        (acc.reverse ++ ts.filter (fun t => !hasStrengthWord (lowerL t)))) := by
  induction ts generalizing acc str with
  | nil => simp [sfsLoop]
  | cons t ts ih =>
    by_cases h : hasStrengthWord (lowerL t) = true
    · simp [sfsLoop, h, List.filter_cons, ih]
    · simp [sfsLoop, h, List.filter_cons, ih]

theorem getLastD_mem (l : List (List Char)) (d : List Char) :
    l = [] ∨ List.getLastD l d ∈ l := by
  induction l generalizing d with
  | nil => exact Or.inl rfl
  | cons a m ih =>
    refine Or.inr ?_
    rw [List.getLastD_cons]
    rcases ih a with h | h
    · subst h
      simp [List.getLastD]
    · exact List.mem_cons_of_mem _ h

theorem normalize_trimmed (s : List Char) : trim (normalize s) = normalize s :=
  trim_idem (collapseWS s)

theorem dropWhile_append_form (p : Char → Bool) (u w : List Char) :
    List.dropWhile p (u ++ w) =
      if List.dropWhile p u = [] then List.dropWhile p w
      else List.dropWhile p u ++ w := by
  induction u with
  | nil => simp
  | cons c u ih =>
    by_cases h : p c
    · simpa [List.dropWhile_cons, h] using ih
    · simp [List.dropWhile_cons, h]

theorem trimR_eq_reverse (s : List Char) :
    trimR s = (s.reverse.dropWhile isPySpace).reverse := by
  induction s with
  | nil => rfl
  | cons c cs ih =>
    rw [List.reverse_cons, dropWhile_append_form]
    by_cases h1 : List.dropWhile isPySpace cs.reverse = []
    · have hcs : trimR cs = [] := by rw [ih, h1]; rfl
      rw [if_pos h1]
      by_cases h2 : isPySpace c = true
      · simp [trimR, hcs, h2, List.dropWhile]
      · simp [trimR, hcs, h2, List.dropWhile]
    · have hcs : trimR cs ≠ [] := by
        rw [ih]
        intro hh
        exact h1 (by simpa using congrArg List.reverse hh)
      rw [if_neg h1, List.reverse_append]
      have hstep : trimR (c :: cs) = c :: trimR cs := by
        simp only [trimR]
        rw [if_neg hcs]
      rw [hstep, ih]
      simp

theorem bracket_span_infix_trim (u mid v : List Char) :
    ('[' :: (mid ++ [']'])) <:+: trim (u ++ (('[' :: (mid ++ [']'])) ++ v)) := by
  have hxhead :
      List.dropWhile isPySpace (('[' :: (mid ++ [']'])) ++ v) =
        ('[' :: (mid ++ [']'])) ++ v := by
    rw [List.cons_append, List.dropWhile_cons, if_neg (by decide)]
  have hL :
      trimL (u ++ (('[' :: (mid ++ [']'])) ++ v)) =
        (if List.dropWhile isPySpace u = [] then [] else List.dropWhile isPySpace u) ++
          (('[' :: (mid ++ [']'])) ++ v) := by
    unfold trimL
    rw [dropWhile_append_form, hxhead]
    split
    · simp
    · rfl
  have hxrev :
      ('[' :: (mid ++ [']'])).reverse = ']' :: (mid.reverse ++ ['[']) := by
    simp
  unfold trim
  rw [hL]
  rw [trimR_eq_reverse]
  have hrev :
      ((if List.dropWhile isPySpace u = [] then [] else List.dropWhile isPySpace u) ++
          (('[' :: (mid ++ [']'])) ++ v)).reverse =
        v.reverse ++ (('[' :: (mid ++ [']'])).reverse ++
          (if List.dropWhile isPySpace u = [] then []
           else List.dropWhile isPySpace u).reverse) := by
    simp [List.reverse_append, List.append_assoc]
  rw [hrev, dropWhile_append_form]
  have hxrevhead :
      List.dropWhile isPySpace
          (('[' :: (mid ++ [']'])).reverse ++
            (if List.dropWhile isPySpace u = [] then []
             else List.dropWhile isPySpace u).reverse) =
        ('[' :: (mid ++ [']'])).reverse ++
          (if List.dropWhile isPySpace u = [] then []
           else List.dropWhile isPySpace u).reverse := by
    rw [hxrev, List.cons_append, List.dropWhile_cons, if_neg (by decide)]
  rw [hxrevhead]
  split
  · refine ⟨(if List.dropWhile isPySpace u = [] then []
      else List.dropWhile isPySpace u), [], ?_⟩
    simp [List.reverse_append]
  · refine ⟨(if List.dropWhile isPySpace u = [] then []
      else List.dropWhile isPySpace u),
      (List.dropWhile isPySpace v.reverse).reverse, ?_⟩
    simp [List.reverse_append, List.append_assoc]

theorem bracket_path_eq (p before inside after : List Char)
    (h : findBracket (normalize p) = some (before, inside, after)) :
    extract_product_flavour_strength p =
      (trim (before ++ after),
       (split_flavour_strength (trim inside)).1,
       (split_flavour_strength (trim inside)).2) := by
  have hne : normalize p ≠ [] := by
    intro he
    rw [he] at h
    exact Option.noConfusion h
  unfold extract_product_flavour_strength decomposeCore
  rw [if_neg hne, h]

theorem strengthStrip_trim (p : List Char) (h : trim p = p) :
    trim (strengthStrip p).2 = (strengthStrip p).2 := by
  unfold strengthStrip
  cases hs : searchStrength p with
  | none => simpa using h
  | some t =>
    obtain ⟨a, m, b⟩ := t
    simpa using trim_idem (a ++ b)

theorem flavourStep_trim (q : List Char) (h : trim q = q) :
    trim (flavourStep q).1 = (flavourStep q).1 := by
  unfold flavourStep
  cases hp : podsSearch q with
  | some t =>
    obtain ⟨b, g⟩ := t
    simpa using trim_idem b
  | none =>
    cases hr : ruleB q with
    | some t =>
      obtain ⟨b, g⟩ := t
      simpa using trim_idem b
    | none => simpa using h

/-! ## Claim theorems -/

/-- C1 counterexample: on the bracket content `A/10mg/20mg` the decomposer
returns the LAST matching token `20mg` as strength, not the first `10mg`,
refuting the first-match claim at this input. -/
theorem strength_first_match_refuted :
    extract_product_flavour_strength ("X [A/10mg/20mg]".toList) =
      ("X".toList, "A".toList, "20mg".toList) ∧
    (extract_product_flavour_strength ("X [A/10mg/20mg]".toList)).2.2 ≠ "10mg".toList := by
  decide

/-- C1 amended: in the bracketed path the returned strength is the LAST token
matching the strength pattern (each later match overwrites the accumulator,
source line 124), earlier matching tokens are dropped entirely, and the
flavour is the join of exactly the non-matching tokens in original order. -/
theorem strength_last_match (inside : List Char) :
    (split_flavour_strength inside).2 =
      List.getLastD ((splitTokens inside).filter (fun t => hasStrengthWord (lowerL t))) [] ∧
    (split_flavour_strength inside).1 =
      trim (List.intercalate [' ']
        ((splitTokens inside).filter (fun t => !hasStrengthWord (lowerL t)))) := by
  constructor
  · unfold split_flavour_strength
    rw [sfsLoop_strength]
  · unfold split_flavour_strength
    rw [sfsLoop_flavour]
    simp

/-- C2 counterexample: the no-bracket strength regex `(\d+\s*mg)\b` has no
LEADING word boundary, so the input `abc123mg` — where the digits+mg run is
embedded in a longer alphanumeric word — yields strength `123mg`, not the
empty strength the claim requires. -/
theorem embedded_mg_no_boundary_refuted :
    extract_product_flavour_strength ("abc123mg".toList) =
      ("abc".toList, [], "123mg".toList) ∧
    (extract_product_flavour_strength ("abc123mg".toList)).2.2 ≠ [] := by
  decide

/-- C2 amended: in the bracketed path the word-edge requirement holds — a
bracket whose tokens contain no word-isolated digits+mg substring produces an
empty strength (first conjunct, and the `abc [xyz123mg]` example) — but in
the no-bracket path only the TRAILING word edge is checked, so a digits+mg
run embedded at the end of a longer word IS extracted (`abc123mg` example). -/
theorem embedded_mg_word_edges :
    (∀ inside : List Char,
        ((splitTokens inside).all (fun t => !hasStrengthWord (lowerL t))) = true →
        (split_flavour_strength inside).2 = []) ∧
    extract_product_flavour_strength ("abc [xyz123mg]".toList) =
      ("abc".toList, "xyz123mg".toList, []) ∧
    extract_product_flavour_strength ("abc123mg".toList) =
      ("abc".toList, [], "123mg".toList) := by
  refine ⟨?_, by decide, by decide⟩
  intro inside h
  unfold split_flavour_strength
  rw [sfsLoop_strength]
  have hf : (splitTokens inside).filter (fun t => hasStrengthWord (lowerL t)) = [] := by
    rw [List.filter_eq_nil_iff]
    intro a ha
    have := List.all_eq_true.1 h a ha
    simpa using this
  rw [hf]
  rfl

/-- C2 witness: the universal conjunct instantiated at the token `xyz123mg`. -/
theorem embedded_mg_word_edges_witness :
    (split_flavour_strength ("xyz123mg".toList)).2 = [] :=
  embedded_mg_word_edges.1 _ (by decide)

/-- C3 counterexample: removing a mid-string bracketed span concatenates the
surrounding spaces, so `A [X] B` returns the product `A  B` with a doubled
internal space, refuting the full whitespace-normalization claim. -/
theorem product_whitespace_refuted :
    extract_product_flavour_strength ("A [X] B".toList) =
      ("A  B".toList, "X".toList, []) ∧
    List.IsInfix ("  ".toList) (extract_product_flavour_strength ("A [X] B".toList)).1 := by
  decide

/-- C3 amended: the returned product never has leading or trailing whitespace
(every branch ends in a strip), but internal doubled spaces may remain where
a mid-string span was removed, as the counterexample shows. -/
theorem product_trimmed (s : List Char) :
    trim (extract_product_flavour_strength s).1 = (extract_product_flavour_strength s).1 := by
  unfold extract_product_flavour_strength decomposeCore
  by_cases h0 : normalize s = []
  · simp [h0]
    decide
  · rw [if_neg h0]
    cases hb : findBracket (normalize s) with
    | some t =>
      obtain ⟨b, i, a⟩ := t
      simpa using trim_idem (b ++ a)
    | none =>
      simpa using flavourStep_trim _ (strengthStrip_trim _ (normalize_trimmed s))

/-- C4: whenever the normalized text has a bracketed span, the decomposer
returns immediately from the bracketed path — the product is the text around
the first span and flavour and strength come solely from its inner tokens, so
the pods and trailing-delimiter rules are never applied; the concrete example
shows a strength-shaped substring outside the brackets staying verbatim in
the product with strength empty. -/
theorem bracket_branch_exclusive :
    (∀ p before inside after : List Char,
        findBracket (normalize p) = some (before, inside, after) →
        extract_product_flavour_strength p =
          (trim (before ++ after),
           (split_flavour_strength (trim inside)).1,
           (split_flavour_strength (trim inside)).2)) ∧
    extract_product_flavour_strength ("Vape 20mg [Mango]".toList) =
      ("Vape 20mg".toList, "Mango".toList, []) := by
  refine ⟨?_, by decide⟩
  intro p b i a h
  have hne : normalize p ≠ [] := by
    intro he
    rw [he] at h
    exact Option.noConfusion h
  unfold extract_product_flavour_strength decomposeCore
  rw [if_neg hne, h]

/-- C4 witness: the universal conjunct instantiated at `Q 5mg [F]`. -/
theorem bracket_branch_exclusive_witness :
    extract_product_flavour_strength ("Q 5mg [F]".toList) =
      (trim ("Q 5mg ".toList ++ ([] : List Char)),
       (split_flavour_strength (trim "F".toList)).1,
       (split_flavour_strength (trim "F".toList)).2) :=
  bracket_branch_exclusive.1 _ _ _ _ (by decide)

/-- C5: for every input whose normalized text has a first bracketed span and
any later bracket-shaped span after it, the decomposition is computed only
from the first non-greedy span — product is the text around it, flavour and
strength come from its inner tokens — and the later bracketed span remains
embedded verbatim (as a contiguous substring) in the returned product; in
particular `X [A/10mg] extra [B/20mg]` yields flavour `A`, strength `10mg`,
and a product still containing `[B/20mg]`. -/
theorem first_bracket_only :
    (∀ p before inner after u mid v : List Char,
        findBracket (normalize p) = some (before, inner, after) →
        after = u ++ ('[' :: (mid ++ (']' :: v))) →
        extract_product_flavour_strength p =
          (trim (before ++ after),
           (split_flavour_strength (trim inner)).1,
           (split_flavour_strength (trim inner)).2) ∧
        List.IsInfix ('[' :: (mid ++ [']']))
          (extract_product_flavour_strength p).1) ∧
    extract_product_flavour_strength ("X [A/10mg] extra [B/20mg]".toList) =
      ("X  extra [B/20mg]".toList, "A".toList, "10mg".toList) ∧
    List.IsInfix ("[B/20mg]".toList)
      (extract_product_flavour_strength ("X [A/10mg] extra [B/20mg]".toList)).1 := by
  refine ⟨?_, by decide, by decide⟩
  intro p b i a u mid v h1 h2
  have hmain := bracket_path_eq p b i a h1
  refine ⟨hmain, ?_⟩
  rw [hmain]
  subst h2
  have hshape :
      b ++ (u ++ ('[' :: (mid ++ (']' :: v)))) =
        (b ++ u) ++ (('[' :: (mid ++ [']'])) ++ v) := by
    simp [List.append_assoc]
  rw [hshape]
  exact bracket_span_infix_trim (b ++ u) mid v

/-- C5 witness: the universal conjunct instantiated at the two-span input
`X [A/10mg] extra [B/20mg]`, whose remainder after the first span contains
the bracketed span `[B/20mg]`. -/
theorem first_bracket_only_witness :
    extract_product_flavour_strength ("X [A/10mg] extra [B/20mg]".toList) =
      (trim ("X ".toList ++ " extra [B/20mg]".toList),
       (split_flavour_strength (trim "A/10mg".toList)).1,
       (split_flavour_strength (trim "A/10mg".toList)).2) ∧
    List.IsInfix ('[' :: ("B/20mg".toList ++ [']']))
      (extract_product_flavour_strength ("X [A/10mg] extra [B/20mg]".toList)).1 :=
  first_bracket_only.1 ("X [A/10mg] extra [B/20mg]".toList) ("X ".toList)
    ("A/10mg".toList) (" extra [B/20mg]".toList) (" extra ".toList) ("B/20mg".toList) []
    (by decide) (by decide)

/-- C6: on the strength-stripped remainder, whenever the pods rule matches —
in particular when the trailing-delimiter rule could match as well — the
flavour and clean product are taken from the pods rule; the concrete example
has both rules matching and the returned flavour `Mango - Ice` still contains
the dash segment the trailing-delimiter rule would have split off. -/
theorem pods_rule_precedence :
    (∀ q before flav : List Char,
        podsSearch q = some (before, flav) →
        (ruleB q).isSome = true →
        flavourStep q = (trim before, trim flav)) ∧
    extract_product_flavour_strength ("Nic Salt Pods Mango - Ice".toList) =
      ("Nic Salt".toList, "Mango - Ice".toList, []) := by
  refine ⟨?_, by decide⟩
  intro q b g h _
  unfold flavourStep
  rw [h]

/-- C6 witness: the universal conjunct instantiated at a remainder on which
both the pods rule and the trailing-delimiter rule match. -/
theorem pods_rule_precedence_witness :
    flavourStep ("Nic Salt Pods Mango - Ice".toList) =
      (trim ("Nic Salt ".toList), trim ("Mango - Ice".toList)) :=
  pods_rule_precedence.1 _ _ _ (by decide) (by decide)

/-- C7: the decomposer is a total function (all definitions here are total);
a missing input behaves as the empty string, and every input that normalizes
to the empty string returns the all-empty triple. -/
theorem decompose_total_on_empty :
    extract_pfs_opt none = ([], [], []) ∧
    extract_product_flavour_strength [] = ([], [], []) ∧
    (∀ s : List Char, normalize s = [] → extract_product_flavour_strength s = ([], [], [])) := by
  refine ⟨by decide, by decide, ?_⟩
  intro s h
  unfold extract_product_flavour_strength decomposeCore
  rw [h]
  simp

/-- C7 witness: the universal conjunct instantiated at a whitespace-only input. -/
theorem decompose_total_on_empty_witness :
    extract_product_flavour_strength ("  ".toList) = ([], [], []) :=
  decompose_total_on_empty.2.2 _ (by decide)

/-- C8: the row-enrichment step replaces each of Product, Flavour, Strength
with the decomposed value exactly when that value is non-empty, keeps the
pre-existing value when the decomposed value is empty, and never modifies the
other columns of the row. -/
theorem parse_row_merge (r : PoRow) :
    (parse_row r).sku = r.sku ∧
    (parse_row r).outstanding = r.outstanding ∧
    (parse_row r).case_size = r.case_size ∧
    ((extract_product_flavour_strength r.product).1 = [] →
      (parse_row r).product = r.product) ∧
    ((extract_product_flavour_strength r.product).1 ≠ [] →
      (parse_row r).product = (extract_product_flavour_strength r.product).1) ∧
    ((extract_product_flavour_strength r.product).2.1 = [] →
      (parse_row r).flavour = r.flavour) ∧
    ((extract_product_flavour_strength r.product).2.1 ≠ [] →
      (parse_row r).flavour = (extract_product_flavour_strength r.product).2.1) ∧
    ((extract_product_flavour_strength r.product).2.2 = [] →
      (parse_row r).strength = r.strength) ∧
    ((extract_product_flavour_strength r.product).2.2 ≠ [] →
      (parse_row r).strength = (extract_product_flavour_strength r.product).2.2) := by
  refine ⟨rfl, rfl, rfl, ?_, ?_, ?_, ?_, ?_, ?_⟩ <;> intro h <;> simp [parse_row, h]

/-- C8 witness: at `sampleRow` the decomposition has an empty strength and a
non-empty flavour, so the old strength survives while the flavour is
replaced, and Sku is untouched. -/
theorem parse_row_merge_witness :
    (parse_row sampleRow).sku = sampleRow.sku ∧
    (parse_row sampleRow).strength = sampleRow.strength ∧
    (parse_row sampleRow).flavour = (extract_product_flavour_strength sampleRow.product).2.1 :=
  ⟨(parse_row_merge sampleRow).1,
   (parse_row_merge sampleRow).2.2.2.2.2.2.2.1 (by decide),
   (parse_row_merge sampleRow).2.2.2.2.2.2.1 (by decide)⟩

/-- C9: a bracket token counts as a strength token when it merely CONTAINS a
word-isolated digits+mg substring, and the ENTIRE token with its original
casing becomes the strength value: the single token `Ice 20mg Special` is
returned whole, and in general every non-empty returned strength is one of
the split tokens and satisfies the containment test. -/
theorem strength_token_whole :
    extract_product_flavour_strength ("X [Ice 20mg Special]".toList) =
      ("X".toList, [], "Ice 20mg Special".toList) ∧
    (∀ inside : List Char,
        (split_flavour_strength inside).2 = [] ∨
        ((split_flavour_strength inside).2 ∈ splitTokens inside ∧
         hasStrengthWord (lowerL (split_flavour_strength inside).2) = true)) := by
  refine ⟨by decide, ?_⟩
  intro inside
  have hs : (split_flavour_strength inside).2 =
      List.getLastD ((splitTokens inside).filter (fun t => hasStrengthWord (lowerL t))) [] := by
    unfold split_flavour_strength
    rw [sfsLoop_strength]
  rcases getLastD_mem ((splitTokens inside).filter (fun t => hasStrengthWord (lowerL t))) []
    with h | h
  · left
    rw [hs, h]
    rfl
  · right
    rw [hs]
    have hm := List.mem_filter.1 h
    exact ⟨hm.1, hm.2⟩

/-- C10: when Outstanding and Case_Size are both positive the computed label
count is the least integer k with Outstanding ≤ k * Case_Size, i.e. the
ceiling of Outstanding / Case_Size; in every other case (non-positive
Outstanding, non-positive or missing Case_Size, missing Outstanding) it is 0. -/
theorem final_labels_ceil (out cs : ℚ) :
    (0 < out → 0 < cs →
      out ≤ (final_labels (some out) (some cs) : ℚ) * cs ∧
      ((final_labels (some out) (some cs) : ℚ) - 1) * cs < out) ∧
    (out ≤ 0 → final_labels (some out) (some cs) = 0) ∧
    (cs ≤ 0 → final_labels (some out) (some cs) = 0) ∧
    final_labels none (some cs) = 0 ∧
    final_labels (some out) none = 0 := by
  refine ⟨?_, ?_, ?_, ?_, rfl⟩
  · intro ho hc
    have hv : final_labels (some out) (some cs) = ⌈out / cs⌉ := by
      simp [final_labels, ho, hc]
    rw [hv]
    constructor
    · have h1 : out / cs ≤ ((⌈out / cs⌉ : ℤ) : ℚ) := Int.le_ceil _
      exact (div_le_iff₀ hc).1 h1
    · have h2 : ((⌈out / cs⌉ : ℤ) : ℚ) - 1 < out / cs := by
        have h3 := Int.ceil_lt_add_one (out / cs)
        push_cast at h3 ⊢
        linarith
      exact (lt_div_iff₀ hc).1 h2
  · intro h
    have hn : ¬ (0 : ℚ) < out := not_lt.2 h
    simp [final_labels, hn]
  · intro h
    have hn : ¬ (0 : ℚ) < cs := not_lt.2 h
    simp [final_labels, hn]
  · simp [final_labels]

/-- C10 witness: the ceiling characterization instantiated at Outstanding 7
and Case_Size 3. -/
theorem final_labels_ceil_witness :
    (7 : ℚ) ≤ (final_labels (some 7) (some 3) : ℚ) * 3 ∧
    ((final_labels (some (7 : ℚ)) (some (3 : ℚ)) : ℚ) - 1) * 3 < 7 :=
  (final_labels_ceil 7 3).1 (by norm_num) (by norm_num)

end LabelApp
